import Mathlib

/-!
Verification of the halfcycle-ordering reconciliation engine and the
multi-experiment selection/view model of the GES cell-cycling dashboard.

The definitions below are shallow embeddings of the Python code in
`cell-cycling/📁_file_manager.py` (ordering validation and experiment
editing) and `cell-cycling/pages/1_📉_cycles_plotter.py` (comparison
buffer, stride selection, color resolution, metric accessor).
Python dictionaries keyed by filename are represented as lists of
entries in insertion order with distinct keys; machine floats carried by
the numeric series are represented as rationals, since the properties at
stake concern which scaling operation is applied, not rounding.
-/

namespace CellCycling

/-- One row of the user-editable ordering table: the `ordering_buffer`
dictionary of `📁_file_manager.py` maps a filename to a
`(cycle, halfcycle)` pair of non-negative integers.  A list of
`OrderingEntry` values models the items of that dictionary in insertion
order. -/
structure OrderingEntry where
  filename : String
  cycle : Nat
  slot : Nat
deriving DecidableEq, Repr

/-- `max_cycle` of `📁_file_manager.py`: starts at `0` and is maxed with
every cycle index selected in the table. -/
def maxCycle (entries : List OrderingEntry) : Nat :=
  entries.foldl (fun m e => max m e.cycle) 0

/-- One group of `cycle_based_buffer`: a Python dict from slot index
(`halfcycle`) to filename, modelled as an association list in insertion
order. -/
abbrev SlotGroup := List (Nat × String)

/-- Python dict assignment `d[k] = v`: replaces the value in place when
the key is present, appends the binding otherwise. -/
def dictInsert (d : SlotGroup) (k : Nat) (v : String) : SlotGroup :=
  if d.any (fun p => p.1 == k) then
    d.map (fun p => if p.1 == k then (k, v) else p)
  else
    d ++ [(k, v)]

/-- One iteration of the loop of `📁_file_manager.py` lines 532-536:
flags a repetition when the slot is already taken in the target cycle
group, then stores the binding. -/
def buildStep (state : List SlotGroup × Bool) (e : OrderingEntry) :
    List SlotGroup × Bool :=
  let grp := state.1.getD e.cycle []
  (state.1.set e.cycle (dictInsert grp e.slot e.filename),
   state.2 || grp.any (fun p => p.1 == e.slot))

/-- `cycle_based_buffer` and the `repetition` flag of
`📁_file_manager.py` lines 530-536: `max_cycle + 1` empty groups, filled
from the ordering table. -/
def cycleBasedBuffer (entries : List OrderingEntry) :
    List SlotGroup × Bool :=
  entries.foldl buildStep
    (List.replicate (maxCycle entries + 1) [], false)

/-- The loop of `📁_file_manager.py` lines 539-542 collecting the
indices of the empty cycle groups, in index order.  The Python code
stores `str(index)`; the decimal rendering is display formatting and the
index itself is kept here. -/
def missingFrom : Nat → List SlotGroup → List Nat
  | _, [] => []
  | i, g :: rest =>
    if g = [] then i :: missingFrom (i + 1) rest
    else missingFrom (i + 1) rest

/-- The `missing` list of `📁_file_manager.py`. -/
def missingList (buf : List SlotGroup) : List Nat :=
  missingFrom 0 buf

/-- The `partial_halfcycle_type_mismatch` flag of `📁_file_manager.py`
lines 545-559: a group trips the flag when one of its files disagrees in
charge/discharge type with the first file of the group.
`isCharge` is the lookup `experiment.manager.halfcycles[f].halfcycle_type
== "charge"`. -/
def typeMismatchFlag (isCharge : String → Bool) (buf : List SlotGroup) :
    Bool :=
  buf.any (fun grp =>
    let is_charge_list := grp.map (fun p => isCharge p.2)
    is_charge_list.any (fun v => v != is_charge_list.headD false))

/-- `max(buffer.keys())` over a slot group (the group is non-empty
whenever this is reached in the Python code). -/
def maxKey (grp : SlotGroup) : Nat :=
  grp.foldl (fun m p => max m p.1) 0

/-- `i in buffer.keys()` / `buffer[i]` lookup on a slot group. -/
def groupLookup (grp : SlotGroup) (i : Nat) : Option String :=
  (grp.find? (fun p => p.1 == i)).map (fun p => p.2)

/-- The inner loop of `📁_file_manager.py` lines 585-587: filenames of
one group appended in order of increasing slot index by scanning
`range(max(buffer.keys()) + 1)`. -/
def canonicalGroup (grp : SlotGroup) : List String :=
  (List.range (maxKey grp + 1)).filterMap (groupLookup grp)

/-- `new_ordering` of `📁_file_manager.py` lines 583-587. -/
def newOrdering (buf : List SlotGroup) : List (List String) :=
  buf.map canonicalGroup

/-- The (slot, filename) pairs visited by the `new_ordering` inner loop,
with their slot index. -/
def canonicalPairs (grp : SlotGroup) : List (Nat × String) :=
  (List.range (maxKey grp + 1)).filterMap
    (fun i => (groupLookup grp i).map (fun f => (i, f)))

/-- Outcome of the ordering validation chain of `📁_file_manager.py`
lines 562-592: the three warnings, or the committed canonical
ordering. -/
inductive OrderingValidation where
  | missingIds : List Nat → OrderingValidation
  | repetitionFound : OrderingValidation
  | typeMismatch : OrderingValidation
  | ok : List (List String) → OrderingValidation
deriving DecidableEq, Repr

/-- The `if missing != [] / elif repetition / elif
partial_halfcycle_type_mismatch / else` reporting chain of
`📁_file_manager.py` lines 562-592. -/
def validateOrdering (isCharge : String → Bool)
    (entries : List OrderingEntry) : OrderingValidation :=
  let state := cycleBasedBuffer entries
  let missing := missingList state.1
  if missing ≠ [] then .missingIds missing
  else if state.2 then .repetitionFound
  else if typeMismatchFlag isCharge state.1 then .typeMismatch
  else .ok (newOrdering state.1)

/-- Whether validation succeeded. -/
def OrderingValidation.isOk : OrderingValidation → Bool
  | .ok _ => true
  | _ => false

example :
    validateOrdering (fun _ => true)
      [⟨"f0", 0, 0⟩, ⟨"f1", 2, 0⟩, ⟨"f2", 2, 0⟩] =
      .missingIds [1] := by decide

example :
    validateOrdering (fun _ => true)
      [⟨"f0", 0, 0⟩, ⟨"f1", 1, 1⟩, ⟨"f2", 1, 0⟩] =
      .ok [["f0"], ["f2", "f1"]] := by decide

example :
    validateOrdering (fun _ => true)
      [⟨"f0", 0, 0⟩, ⟨"f1", 1, 0⟩, ⟨"f2", 1, 0⟩] =
      .repetitionFound := by decide

example :
    validateOrdering (fun f => f == "f0")
      [⟨"f0", 0, 0⟩, ⟨"f1", 0, 1⟩] =
      .typeMismatch := by decide

/-- The fields of an `Experiment` touched by the file-manager page
flows under study: its unique name, the instrument tag reported by the
parser and the committed halfcycle ordering. -/
structure Experiment where
  name : String
  instrument : String
  ordering : List (List String)
deriving DecidableEq, Repr

/-- The ordering-edit commit of `📁_file_manager.py` lines 562-592: the
assignment `experiment.ordering = new_ordering` is reached only in the
`else` branch of the validation chain; on any warning the experiment is
left untouched. -/
def applyOrderingEdit (isCharge : String → Bool)
    (experiment : Experiment) (entries : List OrderingEntry) :
    Experiment :=
  match validateOrdering isCharge entries with
  | .ok l => { experiment with ordering := l }
  | _ => experiment

/-- The add-to-existing-experiment flow of `📁_file_manager.py` lines
147-154: `experiment += new_experiment` runs only when the instrument
tags agree; the merge itself lives in `core/experiment.py` (not under
src/) and is abstracted as a parameter. -/
def addFilesToExperiment (merge : Experiment → Experiment → Experiment)
    (experiment newExperiment : Experiment) : Experiment :=
  if experiment.instrument ≠ newExperiment.instrument then experiment
  else merge experiment newExperiment

/-- One entry of the comparison-plot selection buffer
(`SingleCycleSeries` of `core/gui_core.py`, fields as constructed and
consumed by `1_📉_cycles_plotter.py`). -/
structure SingleCycleSeries where
  label : String
  experiment_name : String
  cycle_id : Nat
  hex_color : String
  color_from_base : Bool
deriving DecidableEq, Repr

/-- `remove_experiment_from_series_buffer` of
`1_📉_cycles_plotter.py` lines 119-135: copies the buffer, clears it and
re-appends every series whose experiment name differs from the given
one. -/
def remove_experiment_from_series_buffer (name : String)
    (selected_series : List SingleCycleSeries) :
    List SingleCycleSeries :=
  selected_series.foldl
    (fun acc series =>
      if series.experiment_name != name then acc ++ [series] else acc)
    []

/-- `np.arange(start, stop, step)` on non-negative integers with a
positive step: `ceil((stop - start) / step)` values
`start, start + step, ...` all below `stop`.  NumPy raises on a zero
step; the widgets of both pages enforce `step ≥ 1`. -/
def npArange (start stop step : Nat) : List Nat :=
  (List.range ((stop - start + step - 1) / step)).map
    (fun i => start + step * i)

example : npArange 0 10 2 = [0, 2, 4, 6, 8] := by decide

example : npArange 3 4 1 = [3] := by decide

example : npArange 5 5 1 = [] := by decide

/-- The stride-based apply handler of the comparison tab,
`1_📉_cycles_plotter.py` lines 1027-1057: first evicts every series of
the chosen experiment from the buffer, then walks
`np.arange(start, stop + 1, stride)`, skips an index when a series with
the same experiment and cycle is already buffered, and otherwise appends
a fresh series labelled `f"{label_prefix} [{n}]"` whose fallback hex
color is `get_plotly_color(len(selected_series))` (the palette
`get_plotly_color` lives in `core/colors.py`, not under src/, and is
abstracted as the parameter `pal`). -/
def comparisonStrideApply (pal : Nat → String)
    (buf : List SingleCycleSeries) (expName labelPre : String)
    (useBase : Bool) (start stop stride : Nat) :
    List SingleCycleSeries :=
  let buf1 := remove_experiment_from_series_buffer expName buf
  (npArange start (stop + 1) stride).foldl
    (fun acc n =>
      if acc.any
          (fun s => s.experiment_name == expName && s.cycle_id == n) then
        acc
      else
        acc ++ [{ label := labelPre ++ " [" ++ toString n ++ "]",
                  experiment_name := expName,
                  cycle_id := n,
                  hex_color := pal acc.length,
                  color_from_base := useBase }])
    buf1

/-- The series appended by one run of the stride-based apply loop when
no duplicate is ever found: one fresh series per generated cycle index,
the palette fallback color taken at the running buffer length. -/
def strideFresh (pal : Nat → String) (expName labelPre : String)
    (useBase : Bool) : List Nat → Nat → List SingleCycleSeries
  | [], _ => []
  | n :: rest, k =>
    { label := labelPre ++ " [" ++ toString n ++ "]",
      experiment_name := expName,
      cycle_id := n,
      hex_color := pal k,
      color_from_base := useBase } ::
      strideFresh pal expName labelPre useBase rest (k + 1)

/-- Number of buffered series carrying a given
(experiment name, cycle index) pair. -/
def pairCount (buf : List SingleCycleSeries) (name : String) (n : Nat) :
    Nat :=
  (buf.filter
    (fun s => s.experiment_name == name && s.cycle_id == n)).length

/-- The per-experiment cycle list `experiment_based_selection[name]` of
`1_📉_cycles_plotter.py` lines 1342-1348: the cycle ids of the buffered
series of one experiment, in buffer order. -/
def experimentCycleList (buf : List SingleCycleSeries) (name : String) :
    List Nat :=
  (buf.filter (fun s => s.experiment_name == name)).map
    (fun s => s.cycle_id)

/-- The per-trace color resolution of `1_📉_cycles_plotter.py` lines
1364-1372: the shade is computed from
`experiment_based_selection[name].index(cycle_id)` and the length of
that list (the `ColorRGB.get_shade` function lives in
`core/colors.py`, not under src/, and is abstracted as the parameter
`shade`); the stored hex color is used only when `color_from_base` is
`False`. -/
def resolveSeriesColor (shade : Nat → Nat → Bool → String) (rev : Bool)
    (buf : List SingleCycleSeries) (entry : SingleCycleSeries) :
    String :=
  let sel := experimentCycleList buf entry.experiment_name
  let traceId := sel.findIdx (fun n => n == entry.cycle_id)
  let shadeColor := shade traceId sel.length rev
  if entry.color_from_base = false then entry.hex_color else shadeColor

/-- Session state touched by the experiment-deletion flow: the registry
of experiments and the comparison-plot series buffer. -/
structure SessionState where
  experiments : List Experiment
  comparison_buffer : List SingleCycleSeries
deriving DecidableEq, Repr

/-- Modelled from the spec: `remove_experiment_entries` of
`core/post_process_handler.py` is not under src/; per spec section 8,
deleting an experiment that has entries in the Comparison Series Model
removes all of that experiment series from the buffer, which is the
page-2 eviction applied to the session buffer. -/
def remove_experiment_entries (name : String) (state : SessionState) :
    SessionState :=
  { state with
    comparison_buffer :=
      remove_experiment_from_series_buffer name state.comparison_buffer }

/-- The delete-experiment button handler of `📁_file_manager.py` lines
264-272: purge the buffered series of the experiment, then drop the
experiment from the registry (`status.remove_experiment` of
`core/gui_core.py`, not under src/, modelled from the spec as removing
the uniquely named registry entry). -/
def deleteExperimentHandler (state : SessionState) (name : String) :
    SessionState :=
  let s1 := remove_experiment_entries name state
  { s1 with
    experiments := s1.experiments.eraseP (fun e => e.name == name) }

/-- Modelled from the spec: `ExperimentSelector.set` of
`core/gui_core.py` is not under src/; per spec section 4.5,
`set(name, cycle_indices)` replaces the visible set for `name` with the
given sequence (inserting the entry when absent).  The view maps an
experiment name to its visible cycle indices. -/
def selectorSet (view : List (String × List Nat)) (name : String)
    (cycles : List Nat) : List (String × List Nat) :=
  if view.any (fun p => p.1 == name) then
    view.map (fun p => if p.1 == name then (name, cycles) else p)
  else
    view ++ [(name, cycles)]

/-- Visible cycle set registered for one experiment name. -/
def viewLookup (view : List (String × List Nat)) (name : String) :
    Option (List Nat) :=
  (view.find? (fun p => p.1 == name)).map (fun p => p.2)

/-- The stacked-tab stride apply handler of `1_📉_cycles_plotter.py`
lines 323-328: computes `np.arange(start, stop + 1, stride)` and stores
it as the visible set of the current view. -/
def stackedStrideApply (view : List (String × List Nat)) (name : String)
    (start stop stride : Nat) : List (String × List Nat) :=
  selectorSet view name (npArange start (stop + 1) stride)

/-- A cycle of the assembled sequence, reduced to the attributes the
claims mention: the resolved charge and discharge halfcycle files. -/
structure CycleRecord where
  charge : Option String
  discharge : Option String
deriving DecidableEq, Repr

/-- Modelled from the spec: the Cycle Assembler of
`core/experiment.py` is not under src/; per spec section 4.3 it converts
each outer group of the canonical ordering into one Cycle, the charge
file of the group filling the charge slot and the discharge file the
discharge slot. -/
def assembleCycles (isCharge : String → Bool)
    (ordering : List (List String)) : List CycleRecord :=
  ordering.map (fun grp =>
    { charge := grp.find? (fun f => isCharge f),
      discharge := grp.find? (fun f => !(isCharge f)) })

/-- The numeric series attached to one parsed halfcycle, as read by
`get_halfcycle_series`; `Q` is the cumulative capacity attribute
`halfcycle.Q`. -/
structure HalfCycleData where
  time : List ℚ
  voltage : List ℚ
  current : List ℚ
  Q : List ℚ
  power : List ℚ
  energy : List ℚ

/-- `HALFCYCLE_SERIES` of `1_📉_cycles_plotter.py` lines 35-42. -/
def HALFCYCLE_SERIES : List String :=
  ["time", "voltage", "current", "charge", "power", "energy"]

/-- `get_halfcycle_series` of `1_📉_cycles_plotter.py` lines 45-102:
returns the axis label and the (possibly normalized) numeric series for
one metric name; an unknown metric raises `ValueError`, modelled as
`none`. -/
def get_halfcycle_series (halfcycle : HalfCycleData) (title : String)
    (volume : Option ℚ) (area : Option ℚ) :
    Option (String × List ℚ) :=
  match title with
  | "time" => some ("Time (s)", halfcycle.time)
  | "voltage" => some ("Voltage (V)", halfcycle.voltage)
  | "current" =>
    match area with
    | none => some ("Current (A)", halfcycle.current)
    | some a =>
      some ("Current density (A/cm<sup>2</sup>)",
        halfcycle.current.map (fun x => x / a))
  | "charge" =>
    match volume with
    | none => some ("Capacity (mAh)", halfcycle.Q)
    | some v =>
      some ("Volumetric capacity (Ah/L)",
        halfcycle.Q.map (fun x => x / (1000 * v)))
  | "power" =>
    match area with
    | none => some ("Power (W)", halfcycle.power)
    | some a =>
      some ("Power density (mW/cm<sup>2</sup>)",
        halfcycle.power.map (fun x => 1000 * x / a))
  | "energy" =>
    match volume with
    | none => some ("Energy (mWh)", halfcycle.energy)
    | some v =>
      some ("Energy density (Wh/L)",
        halfcycle.energy.map (fun x => x / (1000 * v)))
  | _ => none

/-! Helper lemmas on list updates and the buffer-building fold. -/

lemma getD_set_self {α : Type} (l : List α) (i : Nat) (x d : α)
    (h : i < l.length) : (l.set i x).getD i d = x := by
  induction l generalizing i with
  | nil => simp at h
  | cons a t ih =>
    cases i with
    | zero => rfl
    | succ j =>
      simp only [List.set, List.getD, List.getElem?_cons_succ]
      exact ih j (by simpa using h)

lemma getD_set_ne {α : Type} (l : List α) (i j : Nat) (x : α) (d : α)
    (h : i ≠ j) : (l.set i x).getD j d = l.getD j d := by
  induction l generalizing i j with
  | nil => simp [List.set]
  | cons a t ih =>
    cases i with
    | zero =>
      cases j with
      | zero => exact absurd rfl h
      | succ k => rfl
    | succ i' =>
      cases j with
      | zero => rfl
      | succ k =>
        simp only [List.set, List.getD, List.getElem?_cons_succ]
        exact ih i' k (fun hh => h (by rw [hh]))

lemma getD_nil_of_ge {α : Type} (l : List α) (j : Nat) (d : α)
    (h : l.length ≤ j) : l.getD j d = d := by
  simp [List.getD, List.getElem?_eq_none h]

/-- An accumulator never exceeds the result of a `foldl max`. -/
lemma foldl_max_init_le {α : Type} (f : α → Nat) :
    ∀ (l : List α) (init : Nat),
      init ≤ l.foldl (fun m x => max m (f x)) init := by
  intro l
  induction l with
  | nil => intro init; simp
  | cons b t ih =>
    intro init
    exact le_trans (le_max_left _ _) (ih (max init (f b)))

/-- Every projected member is bounded by the result of `foldl max`. -/
lemma mem_le_foldl_max {α : Type} (f : α → Nat) :
    ∀ (l : List α) (init : Nat) (a : α), a ∈ l →
      f a ≤ l.foldl (fun m x => max m (f x)) init := by
  intro l
  induction l with
  | nil => intro init a h; simp at h
  | cons b t ih =>
    intro init a h
    rcases List.mem_cons.mp h with h | h
    · subst h
      exact le_trans (le_max_right init (f a)) (foldl_max_init_le f t _)
    · exact ih _ a h

/-- Every cycle index of the table is bounded by `maxCycle`. -/
lemma cycle_le_maxCycle {entries : List OrderingEntry}
    {e : OrderingEntry} (he : e ∈ entries) :
    e.cycle ≤ maxCycle entries :=
  mem_le_foldl_max (fun x => x.cycle) entries 0 e he

/-- A Python dict is never empty after an assignment. -/
lemma dictInsert_ne_nil (d : SlotGroup) (k : Nat) (v : String) :
    dictInsert d k v ≠ [] := by
  unfold dictInsert
  by_cases hmem : d.any (fun p => p.1 == k)
  · simp only [hmem, if_pos]
    intro h
    rw [List.map_eq_nil_iff] at h
    rw [h] at hmem
    simp at hmem
  · simp only [hmem]
    simp

/-- The buffer fold preserves the number of cycle groups. -/
lemma length_foldl_buildStep (entries : List OrderingEntry)
    (buf : List SlotGroup) (r : Bool) :
    (entries.foldl buildStep (buf, r)).1.length = buf.length := by
  induction entries generalizing buf r with
  | nil => rfl
  | cons e t ih =>
    simp only [List.foldl_cons]
    rw [ih]
    simp [buildStep]

/-- A group of the buffer ends up empty exactly when it started empty
and no processed entry targets it (for in-range groups). -/
lemma foldl_buildStep_empty_iff (entries : List OrderingEntry)
    (buf : List SlotGroup) (r : Bool) (k : Nat) (hk : k < buf.length) :
    ((entries.foldl buildStep (buf, r)).1.getD k [] = [] ↔
      (buf.getD k [] = [] ∧ ∀ e ∈ entries, e.cycle ≠ k)) := by
  induction entries generalizing buf r with
  | nil => simp
  | cons e t ih =>
    simp only [List.foldl_cons]
    by_cases hc : e.cycle = k
    · subst hc
      rw [ih _ _ (by simpa [buildStep] using hk)]
      have hset : (buildStep (buf, r) e).1.getD e.cycle [] =
          dictInsert (buf.getD e.cycle []) e.slot e.filename := by
        simp only [buildStep]
        exact getD_set_self _ _ _ _ hk
      rw [hset]
      constructor
      · rintro ⟨h1, h2⟩
        exact absurd h1 (dictInsert_ne_nil _ _ _)
      · rintro ⟨h1, h2⟩
        exact absurd rfl (h2 e (List.mem_cons_self e t))
    · rw [ih _ _ (by simpa [buildStep] using hk)]
      have hset : (buildStep (buf, r) e).1.getD k [] = buf.getD k [] := by
        simp only [buildStep]
        exact getD_set_ne _ _ _ _ _ hc
      rw [hset]
      simp [List.forall_mem_cons, hc]

/-- Assigning a fresh key appends the binding at the end of the dict. -/
lemma dictInsert_of_fresh (d : SlotGroup) (k : Nat) (v : String)
    (h : ∀ p ∈ d, p.1 ≠ k) : dictInsert d k v = d ++ [(k, v)] := by
  unfold dictInsert
  have hany : d.any (fun p => p.1 == k) = false := by
    rw [List.any_eq_false]
    intro p hp
    simpa using h p hp
  rw [hany]
  simp

/-- Characterization of the buffer fold when no two processed entries
collide on a (cycle, slot) pair and no processed entry collides with the
starting buffer: the repetition flag is left untouched and every cycle
group receives exactly the bindings of its entries, in table order. -/
lemma foldl_buildStep_char (entries : List OrderingEntry) :
    ∀ (buf : List SlotGroup) (r : Bool),
      (∀ e ∈ entries, e.cycle < buf.length) →
      (∀ e ∈ entries, ∀ p ∈ buf.getD e.cycle [], p.1 ≠ e.slot) →
      entries.Pairwise (fun a b => a.cycle = b.cycle → a.slot ≠ b.slot) →
      (entries.foldl buildStep (buf, r)).2 = r ∧
      ∀ k, (entries.foldl buildStep (buf, r)).1.getD k [] =
        buf.getD k [] ++
          (entries.filter (fun e => e.cycle == k)).map
            (fun e => (e.slot, e.filename)) := by
  induction entries with
  | nil =>
    intro buf r _ _ _
    exact ⟨rfl, fun k => by simp⟩
  | cons e t ih =>
    intro buf r hrange hfresh hpw
    have hce : e.cycle < buf.length := hrange e (List.mem_cons_self e t)
    have hfe : ∀ p ∈ buf.getD e.cycle [], p.1 ≠ e.slot :=
      hfresh e (List.mem_cons_self e t)
    have hstep : buildStep (buf, r) e =
        (buf.set e.cycle
          (buf.getD e.cycle [] ++ [(e.slot, e.filename)]), r) := by
      simp only [buildStep]
      rw [dictInsert_of_fresh _ _ _ hfe]
      have hany : (buf.getD e.cycle []).any
          (fun p => p.1 == e.slot) = false := by
        rw [List.any_eq_false]
        intro p hp
        simpa using hfe p hp
      rw [hany]
      simp
    have hpwe := List.pairwise_cons.mp hpw
    set buf' := buf.set e.cycle
      (buf.getD e.cycle [] ++ [(e.slot, e.filename)]) with hbuf'
    have hlen' : buf'.length = buf.length := by simp [hbuf']
    have hrange' : ∀ x ∈ t, x.cycle < buf'.length := by
      intro x hx
      rw [hlen']
      exact hrange x (List.mem_cons_of_mem _ hx)
    have hfresh' : ∀ x ∈ t, ∀ p ∈ buf'.getD x.cycle [], p.1 ≠ x.slot := by
      intro x hx p hp
      by_cases hcc : x.cycle = e.cycle
      · rw [hbuf', hcc, getD_set_self _ _ _ _ hce] at hp
        rcases List.mem_append.mp hp with hp | hp
        · exact hfresh x (List.mem_cons_of_mem _ hx) p (by rw [hcc]; exact hp)
        · have hpe : p = (e.slot, e.filename) := by simpa using hp
          rw [hpe]

          exact fun hs => (hpwe.1 x hx hcc.symm) hs
      · rw [hbuf', getD_set_ne _ _ _ _ _ (fun hh => hcc hh.symm)] at hp
        exact hfresh x (List.mem_cons_of_mem _ hx) p hp
    obtain ⟨hflag, hgroups⟩ := ih buf' r hrange' hfresh' hpwe.2
    rw [List.foldl_cons, hstep]
    refine ⟨hflag, ?_⟩
    intro k
    rw [hgroups k]
    by_cases hkc : e.cycle = k
    · subst hkc
      rw [hbuf', getD_set_self _ _ _ _ hce]
      have hfe' : (e.cycle == e.cycle) = true := by simp
      simp only [List.filter_cons, hfe', if_pos, List.map_cons]
      rw [List.append_assoc]
      rfl
    · rw [hbuf', getD_set_ne _ _ _ _ _ hkc]
      have hfe' : (e.cycle == k) = false := by simpa using hkc
      simp only [List.filter_cons, hfe']
      simp

/-- The slot groups produced by `cycle_based_buffer` on a
repetition-free table: `maxCycle + 1` groups, the `k`-th holding the
(slot, filename) bindings of the entries with cycle index `k` in table
order, and the repetition flag clear. -/
lemma cycleBasedBuffer_char (entries : List OrderingEntry)
    (hpw : entries.Pairwise
      (fun a b => a.cycle = b.cycle → a.slot ≠ b.slot)) :
    (cycleBasedBuffer entries).2 = false ∧
    (cycleBasedBuffer entries).1.length = maxCycle entries + 1 ∧
    ∀ k, (cycleBasedBuffer entries).1.getD k [] =
      (entries.filter (fun e => e.cycle == k)).map
        (fun e => (e.slot, e.filename)) := by
  have hre : ∀ k, (List.replicate (maxCycle entries + 1)
      ([] : SlotGroup)).getD k [] = [] := by
    intro k
    rcases Nat.lt_or_ge k (maxCycle entries + 1) with h | h
    · simp [List.getD, List.getElem?_replicate, h]
    · exact getD_nil_of_ge _ _ _ (by simpa using h)
  obtain ⟨hflag, hgroups⟩ := foldl_buildStep_char entries
    (List.replicate (maxCycle entries + 1) []) false
    (fun e he => by
      simpa using Nat.lt_succ_of_le (cycle_le_maxCycle he))
    (fun e he p hp => by rw [hre] at hp; simp at hp)
    hpw
  refine ⟨hflag, ?_, ?_⟩
  · unfold cycleBasedBuffer
    rw [length_foldl_buildStep]
    simp
  · intro k
    rw [show (cycleBasedBuffer entries) = (List.foldl buildStep
      (List.replicate (maxCycle entries + 1) [], false) entries) from rfl]
    rw [hgroups k, hre k]
    rfl

/-- The missing-index scan returns nothing exactly when no group is
empty. -/
lemma missingFrom_eq_nil_iff (buf : List SlotGroup) :
    ∀ i, missingFrom i buf = [] ↔ ∀ g ∈ buf, g ≠ [] := by
  induction buf with
  | nil => intro i; simp [missingFrom]
  | cons g rest ih =>
    intro i
    by_cases hg : g = []
    · subst hg
      simp [missingFrom]
    · simp only [missingFrom, if_neg hg]
      rw [ih (i + 1)]
      constructor
      · intro h x hx
        rcases List.mem_cons.mp hx with hx | hx
        · rw [hx]; exact hg
        · exact h x hx
      · intro h x hx
        exact h x (List.mem_cons_of_mem _ hx)

/-- An empty in-range group is reported by the missing-index scan. -/
lemma mem_missingFrom (buf : List SlotGroup) :
    ∀ i j, j < buf.length → buf.getD j [] = [] →
      (i + j) ∈ missingFrom i buf := by
  induction buf with
  | nil => intro i j h; simp at h
  | cons g rest ih =>
    intro i j hj hempty
    cases j with
    | zero =>
      have : g = [] := hempty
      simp [missingFrom, this]
    | succ j' =>
      have hmem : (i + 1 + j') ∈ missingFrom (i + 1) rest :=
        ih (i + 1) j' (by simpa using hj) hempty
      have harith : i + (j' + 1) = i + 1 + j' := by omega
      rw [harith]
      unfold missingFrom
      by_cases hg : g = []
      · simp only [if_pos hg]
        exact List.mem_cons_of_mem _ hmem
      · simp only [if_neg hg]
        exact hmem

/-- Dropping the slot index from the visited pairs yields exactly the
inner filename list of `new_ordering`. -/
lemma canonicalGroup_eq_pairs_map (grp : SlotGroup) :
    canonicalGroup grp = (canonicalPairs grp).map (fun p => p.2) := by
  unfold canonicalGroup canonicalPairs
  generalize List.range (maxKey grp + 1) = l
  induction l with
  | nil => rfl
  | cons a t ih =>
    simp only [List.filterMap_cons]
    cases h : groupLookup grp a with
    | none => simpa [h] using ih
    | some f => simpa [h] using ih

/-- The visited pairs carry strictly increasing slot indices. -/
lemma canonicalPairs_pairwise (grp : SlotGroup) :
    (canonicalPairs grp).Pairwise (fun p q => p.1 < q.1) := by
  unfold canonicalPairs
  refine List.Pairwise.filterMap _ ?_ (List.pairwise_lt_range _)
  intro a a' hlt b hb b' hb'
  rcases Option.map_eq_some'.mp hb with ⟨f, _, hf⟩
  rcases Option.map_eq_some'.mp hb' with ⟨f', _, hf'⟩
  rw [← hf, ← hf']
  exact hlt

/-- Every slot key of a group is bounded by `maxKey`. -/
lemma key_le_maxKey {grp : SlotGroup} {p : Nat × String}
    (hp : p ∈ grp) : p.1 ≤ maxKey grp :=
  mem_le_foldl_max (fun q => q.1) grp 0 p hp

/-- On a group with pairwise-distinct keys, the dict lookup finds
exactly the stored bindings. -/
lemma groupLookup_eq_some_iff {grp : SlotGroup}
    (hnd : grp.Pairwise (fun p q => p.1 ≠ q.1)) (s : Nat) (f : String) :
    groupLookup grp s = some f ↔ (s, f) ∈ grp := by
  constructor
  · intro h
    unfold groupLookup at h
    rcases Option.map_eq_some'.mp h with ⟨p, hfind, hsnd⟩
    have hkey : p.1 = s := by simpa using List.find?_some hfind
    have hmem := List.mem_of_find?_eq_some hfind
    have : p = (s, f) := by
      cases p
      simp only at hkey hsnd
      rw [hkey, hsnd]
    rw [← this]
    exact hmem
  · intro h
    unfold groupLookup
    induction grp with
    | nil => simp at h
    | cons q rest ih =>
      rcases List.mem_cons.mp h with hq | hq
      · subst hq
        simp [List.find?]
      · have hne : q.1 ≠ s := by
          have := (List.pairwise_cons.mp hnd).1 (s, f) hq
          simpa using this
        have : (q.1 == s) = false := by simpa using hne
        rw [List.find?]
        rw [this]
        exact ih (List.pairwise_cons.mp hnd).2 hq

/-- On a group with pairwise-distinct keys, the visited pairs are
exactly the stored bindings. -/
lemma mem_canonicalPairs_iff {grp : SlotGroup}
    (hnd : grp.Pairwise (fun p q => p.1 ≠ q.1)) (s : Nat) (f : String) :
    (s, f) ∈ canonicalPairs grp ↔ (s, f) ∈ grp := by
  unfold canonicalPairs
  rw [List.mem_filterMap]
  constructor
  · rintro ⟨i, hi, hsome⟩
    rcases Option.map_eq_some'.mp hsome with ⟨g, hg, hpair⟩
    injection hpair with h1 h2
    subst h1
    subst h2
    exact (groupLookup_eq_some_iff hnd _ _).mp hg
  · intro h
    refine ⟨s, ?_, ?_⟩
    · rw [List.mem_range]
      exact Nat.lt_succ_of_le (key_le_maxKey h)
    · rw [(groupLookup_eq_some_iff hnd s f).mpr h]
      rfl

/-- A fresh buffer is all empty groups. -/
lemma replicate_getD_nil (n k : Nat) :
    (List.replicate n ([] : SlotGroup)).getD k [] = [] := by
  rcases Nat.lt_or_ge k n with h | h
  · simp [List.getD, List.getElem?_replicate, h]
  · exact getD_nil_of_ge _ _ _ (by simpa using h)

/-- `cycle_based_buffer` always holds `max_cycle + 1` groups. -/
lemma cycleBasedBuffer_length (entries : List OrderingEntry) :
    (cycleBasedBuffer entries).1.length = maxCycle entries + 1 := by
  unfold cycleBasedBuffer
  rw [length_foldl_buildStep]
  simp

/-- An in-range group of `cycle_based_buffer` is empty exactly when no
table entry selects its cycle index. -/
lemma cycleBasedBuffer_empty_iff (entries : List OrderingEntry)
    (k : Nat) (hk : k ≤ maxCycle entries) :
    ((cycleBasedBuffer entries).1.getD k [] = [] ↔
      ∀ e ∈ entries, e.cycle ≠ k) := by
  have h := foldl_buildStep_empty_iff entries
    (List.replicate (maxCycle entries + 1) []) false k
    (by simpa using Nat.lt_succ_of_le hk)
  rw [show (cycleBasedBuffer entries) = (List.foldl buildStep
    (List.replicate (maxCycle entries + 1) [], false) entries)
    from rfl]
  rw [h, replicate_getD_nil]
  simp

/-- Claim C1 (amended): the validation chain reports missing cycle
indices first, then slot repetition, then halfcycle type mismatch; in
particular an ordering table exhibiting both a slot repetition and a
missing cycle index is reported as a missing-indices failure. -/
theorem ordering_validation_order (isCharge : String → Bool)
    (entries : List OrderingEntry) :
    ((cycleBasedBuffer entries).2 = true →
      missingList (cycleBasedBuffer entries).1 ≠ [] →
      validateOrdering isCharge entries =
        .missingIds (missingList (cycleBasedBuffer entries).1)) ∧
    (missingList (cycleBasedBuffer entries).1 = [] →
      (cycleBasedBuffer entries).2 = true →
      validateOrdering isCharge entries = .repetitionFound) ∧
    (missingList (cycleBasedBuffer entries).1 = [] →
      (cycleBasedBuffer entries).2 = false →
      typeMismatchFlag isCharge (cycleBasedBuffer entries).1 = true →
      validateOrdering isCharge entries = .typeMismatch) := by
  refine ⟨?_, ?_, ?_⟩
  · intro _ hmiss
    unfold validateOrdering
    rw [if_pos hmiss]
  · intro hmiss hrep
    unfold validateOrdering
    rw [if_neg (by simpa using hmiss), hrep]
    simp
  · intro hmiss hrep hmm
    unfold validateOrdering
    rw [if_neg (by simpa using hmiss), hrep, hmm]
    simp

/-- Witness for the amended Claim C1: three concrete tables, one per
branch of the reporting chain.  The first holds both a slot repetition
(files `f1` and `f2` both claim slot 0 of cycle 2) and a missing cycle
index (1), and the missing-indices failure is the one reported. -/
theorem ordering_validation_order_witness :
    validateOrdering (fun _ => true)
        [⟨"f0", 0, 0⟩, ⟨"f1", 2, 0⟩, ⟨"f2", 2, 0⟩] =
      .missingIds (missingList (cycleBasedBuffer
        [⟨"f0", 0, 0⟩, ⟨"f1", 2, 0⟩, ⟨"f2", 2, 0⟩]).1) ∧
    validateOrdering (fun _ => true)
        [⟨"f0", 0, 0⟩, ⟨"f1", 1, 0⟩, ⟨"f2", 1, 0⟩] =
      .repetitionFound ∧
    validateOrdering (fun f => f == "f0")
        [⟨"f0", 0, 0⟩, ⟨"f1", 0, 1⟩] =
      .typeMismatch :=
  ⟨(ordering_validation_order (fun _ => true)
      [⟨"f0", 0, 0⟩, ⟨"f1", 2, 0⟩, ⟨"f2", 2, 0⟩]).1
      (by decide) (by decide),
   (ordering_validation_order (fun _ => true)
      [⟨"f0", 0, 0⟩, ⟨"f1", 1, 0⟩, ⟨"f2", 1, 0⟩]).2.1
      (by decide) (by decide),
   (ordering_validation_order (fun f => f == "f0")
      [⟨"f0", 0, 0⟩, ⟨"f1", 0, 1⟩]).2.2
      (by decide) (by decide) (by decide)⟩

/-- Counterexample to Claim C1 as stated: a table holding both a slot
repetition (files `f1` and `f2` both claim slot 0 of cycle-index group
2) and a missing cycle index (1) is NOT reported as a repetition
failure; the validator reports the missing index instead. -/
theorem ordering_validation_order_counterexample :
    (cycleBasedBuffer
      [⟨"f0", 0, 0⟩, ⟨"f1", 2, 0⟩, ⟨"f2", 2, 0⟩]).2 = true ∧
    missingList (cycleBasedBuffer
      [⟨"f0", 0, 0⟩, ⟨"f1", 2, 0⟩, ⟨"f2", 2, 0⟩]).1 = [1] ∧
    validateOrdering (fun _ => true)
        [⟨"f0", 0, 0⟩, ⟨"f1", 2, 0⟩, ⟨"f2", 2, 0⟩] ≠
      .repetitionFound ∧
    validateOrdering (fun _ => true)
        [⟨"f0", 0, 0⟩, ⟨"f1", 2, 0⟩, ⟨"f2", 2, 0⟩] =
      .missingIds [1] := by decide

/-- Claim C4: whenever some cycle index up to the maximum selected one
is absent from the table, validation fails with the missing-indices
warning and the payload lists every absent index. -/
theorem missing_indices_failure (isCharge : String → Bool)
    (entries : List OrderingEntry)
    (hgap : ∃ k, k ≤ maxCycle entries ∧ ∀ e ∈ entries, e.cycle ≠ k) :
    ∃ ms, validateOrdering isCharge entries = .missingIds ms ∧
      ∀ k, k ≤ maxCycle entries → (∀ e ∈ entries, e.cycle ≠ k) →
        k ∈ ms := by
  have habsent : ∀ k, k ≤ maxCycle entries →
      (∀ e ∈ entries, e.cycle ≠ k) →
      k ∈ missingList (cycleBasedBuffer entries).1 := by
    intro k hk hke
    have hempty : (cycleBasedBuffer entries).1.getD k [] = [] :=
      (cycleBasedBuffer_empty_iff entries k hk).mpr hke
    have := mem_missingFrom (cycleBasedBuffer entries).1 0 k
      (by rw [cycleBasedBuffer_length]; exact Nat.lt_succ_of_le hk)
      hempty
    simpa [missingList] using this
  obtain ⟨k0, hk0, hk0e⟩ := hgap
  have hne : missingList (cycleBasedBuffer entries).1 ≠ [] := by
    intro hnil
    rw [hnil] at habsent
    exact absurd (habsent k0 hk0 hk0e) (List.not_mem_nil k0)
  refine ⟨missingList (cycleBasedBuffer entries).1, ?_, habsent⟩
  unfold validateOrdering
  rw [if_pos hne]

/-- Witness for Claim C4: the table placing its single file at cycle
index 1 leaves cycle index 0 missing, and 0 is reported. -/
theorem missing_indices_failure_witness :
    ∃ ms, validateOrdering (fun _ => true) [⟨"f", 1, 0⟩] =
        .missingIds ms ∧
      ∀ k, k ≤ maxCycle [⟨"f", 1, 0⟩] →
        (∀ e ∈ [(⟨"f", 1, 0⟩ : OrderingEntry)], e.cycle ≠ k) →
        k ∈ ms :=
  missing_indices_failure (fun _ => true) [⟨"f", 1, 0⟩]
    ⟨0, by decide, by decide⟩

/-- Claim C3: a validation failure leaves the experiment in its prior
state.  Adding a batch whose instrument tag differs is rejected before
the merge runs, whatever the merge would do; an ordering edit rejected
by the validator leaves the committed ordering (and the whole
experiment) untouched. -/
theorem failed_validation_keeps_state :
    (∀ (merge : Experiment → Experiment → Experiment)
        (experiment newExperiment : Experiment),
      experiment.instrument ≠ newExperiment.instrument →
      addFilesToExperiment merge experiment newExperiment =
        experiment) ∧
    (∀ (isCharge : String → Bool) (experiment : Experiment)
        (entries : List OrderingEntry),
      (validateOrdering isCharge entries).isOk = false →
      applyOrderingEdit isCharge experiment entries = experiment) := by
  constructor
  · intro merge experiment newExperiment h
    unfold addFilesToExperiment
    rw [if_pos h]
  · intro isCharge experiment entries h
    unfold applyOrderingEdit
    cases hv : validateOrdering isCharge entries with
    | ok l => rw [hv] at h; simp [OrderingValidation.isOk] at h
    | missingIds ms => rfl
    | repetitionFound => rfl
    | typeMismatch => rfl

/-- Witness for Claim C3: a GAMRY experiment rejects a BIOLOGIC batch
even under a merge that would overwrite it wholesale, and an ordering
edit with a missing cycle index leaves the experiment intact. -/
theorem failed_validation_keeps_state_witness :
    addFilesToExperiment (fun _ b => b)
        ⟨"exp_a", "GAMRY", [["f0"]]⟩ ⟨"exp_b", "BIOLOGIC", []⟩ =
      ⟨"exp_a", "GAMRY", [["f0"]]⟩ ∧
    applyOrderingEdit (fun _ => true)
        ⟨"exp_a", "GAMRY", [["f0"]]⟩ [⟨"f0", 1, 0⟩] =
      ⟨"exp_a", "GAMRY", [["f0"]]⟩ :=
  ⟨failed_validation_keeps_state.1 (fun _ b => b)
      ⟨"exp_a", "GAMRY", [["f0"]]⟩ ⟨"exp_b", "BIOLOGIC", []⟩
      (by decide),
   failed_validation_keeps_state.2 (fun _ => true)
      ⟨"exp_a", "GAMRY", [["f0"]]⟩ [⟨"f0", 1, 0⟩] (by decide)⟩

/-- A `foldl max` stays below any common bound. -/
lemma foldl_max_le {α : Type} (f : α → Nat) (N : Nat) :
    ∀ (l : List α) (init : Nat), init ≤ N → (∀ a ∈ l, f a ≤ N) →
      l.foldl (fun m x => max m (f x)) init ≤ N := by
  intro l
  induction l with
  | nil => intro init h _; simpa using h
  | cons b t ih =>
    intro init h hb
    exact ih _ (max_le h (hb b (List.mem_cons_self b t)))
      (fun a ha => hb a (List.mem_cons_of_mem _ ha))

/-- The per-group mismatch test of the Python code returns `false` on a
list whose booleans all agree. -/
lemma mismatch_test_false (xs : List Bool)
    (h : ∀ x ∈ xs, ∀ y ∈ xs, x = y) :
    xs.any (fun v => v != xs.headD false) = false := by
  cases xs with
  | nil => rfl
  | cons b rest =>
    rw [List.any_eq_false]
    intro v hv
    have := h v hv b (List.mem_cons_self b rest)
    simp [this]

/-- Claim C2: an ordering table whose distinct cycle indices are exactly
the contiguous range up to `N`, with unique slot indices inside each
cycle group and one halfcycle type per group, passes validation; the
canonical ordering has exactly `N + 1` groups whose inner filename lists
enumerate the bindings of their group by strictly ascending slot index,
and the assembled cycle sequence has exactly `N + 1` cycles. -/
theorem contiguous_ordering_validates (isCharge : String → Bool)
    (entries : List OrderingEntry) (N : Nat)
    (hbound : ∀ e ∈ entries, e.cycle ≤ N)
    (hcover : ∀ k, k ≤ N → ∃ e ∈ entries, e.cycle = k)
    (hslots : entries.Pairwise
      (fun a b => a.cycle = b.cycle → a.slot ≠ b.slot))
    (htypes : ∀ e1 ∈ entries, ∀ e2 ∈ entries, e1.cycle = e2.cycle →
      isCharge e1.filename = isCharge e2.filename) :
    ∃ l, validateOrdering isCharge entries = .ok l ∧
      l.length = N + 1 ∧
      (assembleCycles isCharge l).length = N + 1 ∧
      ∀ i, i < l.length →
        ∃ ps : List (Nat × String),
          l.getD i [] = ps.map (fun p => p.2) ∧
          ps.Pairwise (fun p q => p.1 < q.1) ∧
          ∀ s f, (s, f) ∈ ps ↔
            ∃ e ∈ entries, e.cycle = i ∧ e.slot = s ∧
              e.filename = f := by
  obtain ⟨hflag, hlen, hgroups⟩ := cycleBasedBuffer_char entries hslots
  have hmax : maxCycle entries = N := by
    refine le_antisymm ?_ ?_
    · exact foldl_max_le (fun e => e.cycle) N entries 0 (Nat.zero_le N)
        hbound
    · obtain ⟨e, he, hce⟩ := hcover N le_rfl
      rw [← hce]
      exact cycle_le_maxCycle he
  have hmiss : missingList (cycleBasedBuffer entries).1 = [] := by
    rw [missingList, missingFrom_eq_nil_iff]
    intro g hg
    obtain ⟨k, hk, hgk⟩ := List.getElem_of_mem hg
    have hgetD : (cycleBasedBuffer entries).1.getD k [] = g := by
      simp [List.getD, List.getElem?_eq_getElem hk, hgk]
    intro hgnil
    have hkN : k ≤ maxCycle entries := by
      rw [hlen] at hk
      omega
    have := (cycleBasedBuffer_empty_iff entries k hkN).mp
      (by rw [hgetD]; exact hgnil)
    obtain ⟨e, he, hce⟩ := hcover k (by rw [← hmax]; exact hkN)
    exact this e he hce
  have hmm : typeMismatchFlag isCharge (cycleBasedBuffer entries).1 =
      false := by
    unfold typeMismatchFlag
    rw [List.any_eq_false]
    intro grp hgrp
    obtain ⟨k, hk, hgk⟩ := List.getElem_of_mem hgrp
    have hgetD : (cycleBasedBuffer entries).1.getD k [] = grp := by
      simp [List.getD, List.getElem?_eq_getElem hk, hgk]
    rw [hgroups k] at hgetD
    simp only [Bool.not_eq_true]
    show (grp.map (fun p => isCharge p.2)).any
      (fun v => v != (grp.map (fun p => isCharge p.2)).headD false) =
        false
    apply mismatch_test_false
    intro x hx y hy
    rw [← hgetD] at hx hy
    simp only [List.map_map, List.mem_map, Function.comp] at hx hy
    obtain ⟨ex, hex, hexp⟩ := hx
    obtain ⟨ey, hey, heyq⟩ := hy
    have hex' := List.mem_filter.mp hex
    have hey' := List.mem_filter.mp hey
    have hcycle : ex.cycle = ey.cycle := by
      have h1 : (ex.cycle == k) = true := hex'.2
      have h2 : (ey.cycle == k) = true := hey'.2
      simp only [beq_iff_eq] at h1 h2
      rw [h1, h2]
    rw [← hexp, ← heyq]
    exact htypes ex hex'.1 ey hey'.1 hcycle
  have hok : validateOrdering isCharge entries =
      .ok (newOrdering (cycleBasedBuffer entries).1) := by
    unfold validateOrdering
    rw [if_neg (by simpa using hmiss), hflag, hmm]
    simp
  refine ⟨newOrdering (cycleBasedBuffer entries).1, hok, ?_, ?_, ?_⟩
  · unfold newOrdering
    rw [List.length_map, hlen, hmax]
  · unfold assembleCycles newOrdering
    rw [List.length_map, List.length_map, hlen, hmax]
  · intro i hi
    have hilen : i < (cycleBasedBuffer entries).1.length := by
      unfold newOrdering at hi
      rw [List.length_map] at hi
      exact hi
    have hgetD : (newOrdering (cycleBasedBuffer entries).1).getD i [] =
        canonicalGroup ((cycleBasedBuffer entries).1.getD i []) := by
      unfold newOrdering
      simp [List.getD, List.getElem?_eq_getElem hilen,
        List.getElem?_eq_getElem
          (show i < (List.map canonicalGroup
            (cycleBasedBuffer entries).1).length by
              rw [List.length_map]; exact hilen)]
    set grp := (cycleBasedBuffer entries).1.getD i [] with hgrp
    have hgrpchar : grp =
        (entries.filter (fun e => e.cycle == i)).map
          (fun e => (e.slot, e.filename)) := hgroups i
    have hnd : grp.Pairwise (fun p q => p.1 ≠ q.1) := by
      rw [hgrpchar, List.pairwise_map]
      have hpf : (entries.filter
          (fun e => e.cycle == i)).Pairwise
          (fun a b => a.cycle = b.cycle → a.slot ≠ b.slot) :=
        hslots.filter _
      refine hpf.imp_of_mem ?_
      intro a b ha hb hab
      have hac : (a.cycle == i) = true := (List.mem_filter.mp ha).2
      have hbc : (b.cycle == i) = true := (List.mem_filter.mp hb).2
      simp only [beq_iff_eq] at hac hbc
      have := hab (by rw [hac, hbc])
      simpa using this
    refine ⟨canonicalPairs grp, ?_, canonicalPairs_pairwise grp, ?_⟩
    · rw [hgetD]
      exact canonicalGroup_eq_pairs_map grp
    · intro s f
      rw [mem_canonicalPairs_iff hnd s f, hgrpchar]
      constructor
      · intro hmem
        obtain ⟨e, he, hpair⟩ := List.mem_map.mp hmem
        have he' := List.mem_filter.mp he
        injection hpair with h1 h2
        refine ⟨e, he'.1, ?_, h1, h2⟩
        have : (e.cycle == i) = true := he'.2
        simpa using this
      · rintro ⟨e, he, hcy, hs, hf⟩
        rw [List.mem_map]
        refine ⟨e, ?_, by rw [hs, hf]⟩
        rw [List.mem_filter]
        exact ⟨he, by simpa using hcy⟩

/-- Witness for Claim C2: a two-cycle table (cycle 1 split over slots 0
and 1) validates and yields two groups and two cycles. -/
theorem contiguous_ordering_validates_witness :
    ∃ l, validateOrdering (fun _ => true)
        [⟨"f0", 0, 0⟩, ⟨"f1", 1, 0⟩, ⟨"f2", 1, 1⟩] = .ok l ∧
      l.length = 1 + 1 ∧
      (assembleCycles (fun _ => true) l).length = 1 + 1 ∧
      ∀ i, i < l.length →
        ∃ ps : List (Nat × String),
          l.getD i [] = ps.map (fun p => p.2) ∧
          ps.Pairwise (fun p q => p.1 < q.1) ∧
          ∀ s f, (s, f) ∈ ps ↔
            ∃ e ∈ [(⟨"f0", 0, 0⟩ : OrderingEntry), ⟨"f1", 1, 0⟩,
                ⟨"f2", 1, 1⟩],
              e.cycle = i ∧ e.slot = s ∧ e.filename = f :=
  contiguous_ordering_validates (fun _ => true)
    [⟨"f0", 0, 0⟩, ⟨"f1", 1, 0⟩, ⟨"f2", 1, 1⟩] 1
    (by decide) (by decide) (by decide) (by decide)

/-! Lemmas on `np.arange` and the comparison-buffer operations. -/

/-- Every generated arange value stays below the exclusive bound. -/
lemma npArange_lt (a E s : Nat) (hs : 1 ≤ s) :
    ∀ n ∈ npArange a E s, n < E := by
  intro n hn
  unfold npArange at hn
  obtain ⟨i, hi, hni⟩ := List.mem_map.mp hn
  rw [List.mem_range] at hi
  have hi' : i + 1 ≤ (E - a + s - 1) / s := hi
  have hmul : (i + 1) * s ≤ E - a + s - 1 :=
    (Nat.le_div_iff_mul_le hs).mp hi'
  have hmul' : s * i + s ≤ E - a + s - 1 := by
    have : (i + 1) * s = s * i + s := by ring
    rw [← this]
    exact hmul
  omega

/-- The arange values are strictly increasing. -/
lemma npArange_pairwise (a E s : Nat) (hs : 1 ≤ s) :
    (npArange a E s).Pairwise (· < ·) := by
  unfold npArange
  rw [List.pairwise_map]
  refine (List.pairwise_lt_range _).imp ?_
  intro i j hij
  have : s * i < s * j := (Nat.mul_lt_mul_left hs).mpr hij
  omega

/-- The eviction loop of `remove_experiment_from_series_buffer` is a
filter on the experiment name. -/
lemma remove_experiment_eq_filter (name : String)
    (buf : List SingleCycleSeries) :
    remove_experiment_from_series_buffer name buf =
      buf.filter (fun s => s.experiment_name != name) := by
  have general : ∀ (l acc : List SingleCycleSeries),
      l.foldl (fun acc series =>
        if series.experiment_name != name then acc ++ [series]
        else acc) acc =
      acc ++ l.filter (fun s => s.experiment_name != name) := by
    intro l
    induction l with
    | nil => intro acc; simp
    | cons x t ih =>
      intro acc
      simp only [List.foldl_cons, List.filter_cons]
      by_cases hx : x.experiment_name != name
      · rw [if_pos hx, ih, hx]
        simp
      · rw [if_neg hx]
        rw [ih]
        have : (x.experiment_name != name) = false := by
          revert hx
          cases x.experiment_name != name <;> simp
        rw [this]
        simp
  unfold remove_experiment_from_series_buffer
  rw [general]
  rfl

/-- No series of the named experiment survives the eviction. -/
lemma remove_experiment_no_member (name : String)
    (buf : List SingleCycleSeries) (t : SingleCycleSeries)
    (ht : t ∈ remove_experiment_from_series_buffer name buf) :
    t.experiment_name ≠ name := by
  rw [remove_experiment_eq_filter] at ht
  have := (List.mem_filter.mp ht).2
  simpa using this

/-- Unfolding of the stride apply loop when the accumulator never
collides with an upcoming index: every generated index appends a fresh
series and the duplicate check never fires. -/
lemma strideFold_eq (pal : Nat → String) (expName labelPre : String)
    (useBase : Bool) :
    ∀ (ns : List Nat) (acc : List SingleCycleSeries),
      ns.Pairwise (· < ·) →
      (∀ t ∈ acc, t.experiment_name = expName →
        ∀ n ∈ ns, t.cycle_id ≠ n) →
      ns.foldl
        (fun acc n =>
          if acc.any
              (fun s =>
                s.experiment_name == expName && s.cycle_id == n) then
            acc
          else
            acc ++ [{ label := labelPre ++ " [" ++ toString n ++ "]",
                      experiment_name := expName,
                      cycle_id := n,
                      hex_color := pal acc.length,
                      color_from_base := useBase }])
        acc =
      acc ++ strideFresh pal expName labelPre useBase ns acc.length := by
  intro ns
  induction ns with
  | nil => intro acc _ _; simp [strideFresh]
  | cons n rest ih =>
    intro acc hpw hinv
    have hcheck : acc.any
        (fun s => s.experiment_name == expName && s.cycle_id == n) =
        false := by
      rw [List.any_eq_false]
      intro t ht
      by_cases hname : t.experiment_name = expName
      · have := hinv t ht hname n (List.mem_cons_self n rest)
        simp [hname, this]
      · simp [hname]
    simp only [List.foldl_cons, hcheck, Bool.false_eq_true, if_neg,
      if_false]
    set fresh : SingleCycleSeries :=
      { label := labelPre ++ " [" ++ toString n ++ "]",
        experiment_name := expName,
        cycle_id := n,
        hex_color := pal acc.length,
        color_from_base := useBase } with hfresh
    have hpw' := List.pairwise_cons.mp hpw
    have hinv' : ∀ t ∈ acc ++ [fresh], t.experiment_name = expName →
        ∀ m ∈ rest, t.cycle_id ≠ m := by
      intro t ht hname m hm
      rcases List.mem_append.mp ht with ht | ht
      · exact hinv t ht hname m (List.mem_cons_of_mem _ hm)
      · have : t = fresh := by simpa using ht
        rw [this, hfresh]
        have hlt : n < m := hpw'.1 m hm
        simp only
        omega
    rw [ih (acc ++ [fresh]) hpw'.2 hinv']
    simp only [List.length_append, List.length_cons,
      List.length_nil]
    rw [List.append_assoc]
    rfl

/-- The stride-based apply of the comparison tab, in closed form: the
surviving buffer (everything but the chosen experiment) followed by one
fresh series per generated index. -/
lemma comparisonStrideApply_eq (pal : Nat → String)
    (buf : List SingleCycleSeries) (expName labelPre : String)
    (useBase : Bool) (start stop stride : Nat) (hs : 1 ≤ stride) :
    comparisonStrideApply pal buf expName labelPre useBase
        start stop stride =
      remove_experiment_from_series_buffer expName buf ++
        strideFresh pal expName labelPre useBase
          (npArange start (stop + 1) stride)
          (remove_experiment_from_series_buffer expName buf).length := by
  unfold comparisonStrideApply
  exact strideFold_eq pal expName labelPre useBase
    (npArange start (stop + 1) stride)
    (remove_experiment_from_series_buffer expName buf)
    (npArange_pairwise _ _ _ hs)
    (fun t ht hname _ _ =>
      absurd hname (remove_experiment_no_member expName buf t ht))

/-- Pair counting distributes over buffer concatenation. -/
lemma pairCount_append (l1 l2 : List SingleCycleSeries) (nm : String)
    (n : Nat) :
    pairCount (l1 ++ l2) nm n = pairCount l1 nm n + pairCount l2 nm n := by
  unfold pairCount
  rw [List.filter_append, List.length_append]

/-- Pair counting on a cons cell: one when the head matches, plus the
count of the tail. -/
lemma pairCount_cons (x : SingleCycleSeries)
    (l : List SingleCycleSeries) (nm : String) (n : Nat) :
    pairCount (x :: l) nm n =
      (if (x.experiment_name == nm && x.cycle_id == n) = true then 1
       else 0) + pairCount l nm n := by
  unfold pairCount
  rw [List.filter_cons]
  by_cases h : (x.experiment_name == nm && x.cycle_id == n) = true
  · rw [if_pos h, if_pos h, List.length_cons]
    omega
  · rw [if_neg h, if_neg h]
    omega

/-- One step of the fresh-series construction. -/
lemma strideFresh_cons (pal : Nat → String) (e labelPre : String)
    (ub : Bool) (m : Nat) (rest : List Nat) (k : Nat) :
    strideFresh pal e labelPre ub (m :: rest) k =
      { label := labelPre ++ " [" ++ toString m ++ "]",
        experiment_name := e, cycle_id := m, hex_color := pal k,
        color_from_base := ub } ::
        strideFresh pal e labelPre ub rest (k + 1) := rfl

/-- Fresh stride series never carry another experiment name. -/
lemma pairCount_strideFresh_other (pal : Nat → String)
    (e labelPre : String) (ub : Bool) (nm : String) (hne : nm ≠ e)
    (n : Nat) :
    ∀ (ns : List Nat) (k : Nat),
      pairCount (strideFresh pal e labelPre ub ns k) nm n = 0 := by
  intro ns
  induction ns with
  | nil => intro k; rfl
  | cons m rest ih =>
    intro k
    rw [strideFresh_cons, pairCount_cons]
    have h1 : (e == nm) = false := by simpa using Ne.symm hne
    simp [h1, ih (k + 1)]

/-- On a strictly increasing index list, the fresh stride series hold
each pair of the chosen experiment at most (and exactly) once. -/
lemma pairCount_strideFresh_self (pal : Nat → String)
    (e labelPre : String) (ub : Bool) (n : Nat) :
    ∀ (ns : List Nat) (k : Nat), ns.Pairwise (· < ·) →
      pairCount (strideFresh pal e labelPre ub ns k) e n =
        if n ∈ ns then 1 else 0 := by
  intro ns
  induction ns with
  | nil => intro k _; simp [strideFresh, pairCount]
  | cons m rest ih =>
    intro k hpw
    have hpw' := List.pairwise_cons.mp hpw
    rw [strideFresh_cons, pairCount_cons, ih (k + 1) hpw'.2]
    by_cases hmn : m = n
    · subst hmn
      have hnotrest : m ∉ rest := by
        intro hmem
        exact absurd rfl (Nat.ne_of_lt (hpw'.1 m hmem))
      simp [hnotrest]
    · have hnm : ¬n = m := fun h => hmn h.symm
      simp [hmn, List.mem_cons, hnm]

/-- After evicting an experiment, its pairs are gone. -/
lemma pairCount_filter_self (name : String) (n : Nat)
    (buf : List SingleCycleSeries) :
    pairCount
      (buf.filter (fun s => s.experiment_name != name)) name n = 0 := by
  unfold pairCount
  rw [List.length_eq_zero, List.filter_eq_nil_iff]
  intro s hs
  have hne : s.experiment_name ≠ name := by
    have := (List.mem_filter.mp hs).2
    simpa using this
  have : (s.experiment_name == name) = false := by simpa using hne
  rw [this]
  simp

/-- Evicting one experiment leaves the pair counts of the others
unchanged. -/
lemma pairCount_filter_other (name nm : String) (hne : nm ≠ name)
    (n : Nat) (buf : List SingleCycleSeries) :
    pairCount (buf.filter (fun s => s.experiment_name != name)) nm n =
      pairCount buf nm n := by
  induction buf with
  | nil => rfl
  | cons x t ih =>
    rw [List.filter_cons]
    by_cases hx : x.experiment_name = name
    · have hdrop : (x.experiment_name != name) = false := by
        simp [hx]
      have hpair : (x.experiment_name == nm && x.cycle_id == n) =
          false := by
        have h1 : (x.experiment_name == nm) = false := by
          rw [hx]
          simpa using Ne.symm hne
        rw [h1]
        rfl
      rw [hdrop]
      simp only [Bool.false_eq_true, if_false]
      rw [ih, pairCount_cons, hpair]
      simp
    · have hkeep : (x.experiment_name != name) = true := by
        simpa using hx
      rw [hkeep]
      simp only [if_pos]
      rw [pairCount_cons, pairCount_cons, ih]

/-- Claim C5 (amended): stride-based population first removes every
buffered series of the chosen experiment (the eviction is a filter on
the experiment name, so other experiments survive in order), then
appends one fresh series per generated arange index — labelled with the
prefix and the index, carrying the `color_from_base` flag and a palette
fallback color taken at the append-time buffer length.  The duplicate
check of the loop never fires, so previously buffered series of the
chosen experiment are replaced, not kept. -/
theorem comparison_stride_population (pal : Nat → String)
    (buf : List SingleCycleSeries) (expName labelPre : String)
    (useBase : Bool) (start stop stride : Nat) (hs : 1 ≤ stride) :
    comparisonStrideApply pal buf expName labelPre useBase
        start stop stride =
      remove_experiment_from_series_buffer expName buf ++
        strideFresh pal expName labelPre useBase
          (npArange start (stop + 1) stride)
          (remove_experiment_from_series_buffer expName buf).length ∧
    remove_experiment_from_series_buffer expName buf =
      buf.filter (fun s => s.experiment_name != expName) :=
  ⟨comparisonStrideApply_eq pal buf expName labelPre useBase
      start stop stride hs,
   remove_experiment_eq_filter expName buf⟩

/-- Witness for the amended Claim C5 on a concrete buffer holding one
series of the chosen experiment and one of another experiment. -/
theorem comparison_stride_population_witness :
    comparisonStrideApply (fun _ => "#000000")
        [⟨"custom", "exp_a", 0, "#112233", false⟩,
         ⟨"keep", "exp_b", 5, "#ffffff", true⟩]
        "exp_a" "exp_a" true 0 1 1 =
      remove_experiment_from_series_buffer "exp_a"
          [⟨"custom", "exp_a", 0, "#112233", false⟩,
           ⟨"keep", "exp_b", 5, "#ffffff", true⟩] ++
        strideFresh (fun _ => "#000000") "exp_a" "exp_a" true
          (npArange 0 (1 + 1) 1)
          (remove_experiment_from_series_buffer "exp_a"
            [⟨"custom", "exp_a", 0, "#112233", false⟩,
             ⟨"keep", "exp_b", 5, "#ffffff", true⟩]).length ∧
    remove_experiment_from_series_buffer "exp_a"
        [⟨"custom", "exp_a", 0, "#112233", false⟩,
         ⟨"keep", "exp_b", 5, "#ffffff", true⟩] =
      List.filter (fun s => s.experiment_name != "exp_a")
        [⟨"custom", "exp_a", 0, "#112233", false⟩,
         ⟨"keep", "exp_b", 5, "#ffffff", true⟩] :=
  comparison_stride_population (fun _ => "#000000")
    [⟨"custom", "exp_a", 0, "#112233", false⟩,
     ⟨"keep", "exp_b", 5, "#ffffff", true⟩]
    "exp_a" "exp_a" true 0 1 1 (by decide)

/-- Counterexample to Claim C5 as stated: the buffer already holds a
series for the pair (exp_a, 0) — with a custom label and a fixed color —
and stride apply over indices 0 and 1 does NOT keep it unchanged: the
old series is gone from the result and a fresh relabelled series took
its place. -/
theorem comparison_stride_population_counterexample :
    (⟨"custom", "exp_a", 0, "#112233", false⟩ : SingleCycleSeries) ∈
      ([⟨"custom", "exp_a", 0, "#112233", false⟩] :
        List SingleCycleSeries) ∧
    comparisonStrideApply (fun _ => "#000000")
        [⟨"custom", "exp_a", 0, "#112233", false⟩]
        "exp_a" "exp_a" true 0 1 1 =
      [⟨"exp_a [0]", "exp_a", 0, "#000000", true⟩,
       ⟨"exp_a [1]", "exp_a", 1, "#000000", true⟩] ∧
    (⟨"custom", "exp_a", 0, "#112233", false⟩ : SingleCycleSeries) ∉
      comparisonStrideApply (fun _ => "#000000")
        [⟨"custom", "exp_a", 0, "#112233", false⟩]
        "exp_a" "exp_a" true 0 1 1 := by decide

/-- Claim C6: after a stride-based population the populated experiment
holds each cycle index at most once, pair counts of other experiments
are untouched, the at-most-one invariant of the whole buffer is
preserved, and populating the same range twice leaves exactly one
series per generated pair. -/
theorem comparison_buffer_dedup (pal : Nat → String)
    (buf : List SingleCycleSeries) (expName labelPre : String)
    (useBase : Bool) (start stop stride : Nat) (hs : 1 ≤ stride) :
    (∀ n, pairCount (comparisonStrideApply pal buf expName labelPre
      useBase start stop stride) expName n ≤ 1) ∧
    (∀ nm n, nm ≠ expName →
      pairCount (comparisonStrideApply pal buf expName labelPre
        useBase start stop stride) nm n = pairCount buf nm n) ∧
    ((∀ nm n, pairCount buf nm n ≤ 1) →
      ∀ nm n, pairCount (comparisonStrideApply pal buf expName labelPre
        useBase start stop stride) nm n ≤ 1) ∧
    (∀ n, n ∈ npArange start (stop + 1) stride →
      pairCount
        (comparisonStrideApply pal
          (comparisonStrideApply pal buf expName labelPre useBase
            start stop stride)
          expName labelPre useBase start stop stride) expName n = 1) := by
  have hself : ∀ (b : List SingleCycleSeries) (n : Nat),
      pairCount (comparisonStrideApply pal b expName labelPre useBase
        start stop stride) expName n =
      if n ∈ npArange start (stop + 1) stride then 1 else 0 := by
    intro b n
    rw [comparisonStrideApply_eq pal b expName labelPre useBase
      start stop stride hs]
    rw [pairCount_append, remove_experiment_eq_filter,
      pairCount_filter_self,
      pairCount_strideFresh_self pal expName labelPre useBase n _ _
        (npArange_pairwise _ _ _ hs)]
    exact Nat.zero_add _
  have hother : ∀ (b : List SingleCycleSeries) (nm : String) (n : Nat),
      nm ≠ expName →
      pairCount (comparisonStrideApply pal b expName labelPre useBase
        start stop stride) nm n = pairCount b nm n := by
    intro b nm n hne
    rw [comparisonStrideApply_eq pal b expName labelPre useBase
      start stop stride hs]
    rw [pairCount_append, remove_experiment_eq_filter,
      pairCount_filter_other expName nm hne,
      pairCount_strideFresh_other pal expName labelPre useBase nm hne]
    exact Nat.add_zero _
  refine ⟨?_, fun nm n hne => hother buf nm n hne, ?_, ?_⟩
  · intro n
    rw [hself buf n]
    split <;> omega
  · intro hinv nm n
    by_cases hne : nm = expName
    · subst hne
      rw [hself buf n]
      split <;> omega
    · rw [hother buf nm n hne]
      exact hinv nm n
  · intro n hn
    rw [hself _ n, if_pos hn]

/-- Witness for Claim C6 on a concrete buffer holding a series of
another experiment. -/
theorem comparison_buffer_dedup_witness :
    (∀ n, pairCount (comparisonStrideApply (fun _ => "#000000")
      [⟨"s", "exp_b", 0, "#111111", false⟩] "exp_a" "exp_a" true 0 1 1)
      "exp_a" n ≤ 1) ∧
    (∀ nm n, nm ≠ "exp_a" →
      pairCount (comparisonStrideApply (fun _ => "#000000")
        [⟨"s", "exp_b", 0, "#111111", false⟩] "exp_a" "exp_a" true
        0 1 1) nm n =
      pairCount [⟨"s", "exp_b", 0, "#111111", false⟩] nm n) ∧
    ((∀ nm n, pairCount [⟨"s", "exp_b", 0, "#111111", false⟩] nm n ≤ 1) →
      ∀ nm n, pairCount (comparisonStrideApply (fun _ => "#000000")
        [⟨"s", "exp_b", 0, "#111111", false⟩] "exp_a" "exp_a" true
        0 1 1) nm n ≤ 1) ∧
    (∀ n, n ∈ npArange 0 (1 + 1) 1 →
      pairCount
        (comparisonStrideApply (fun _ => "#000000")
          (comparisonStrideApply (fun _ => "#000000")
            [⟨"s", "exp_b", 0, "#111111", false⟩] "exp_a" "exp_a" true
            0 1 1)
          "exp_a" "exp_a" true 0 1 1) "exp_a" n = 1) :=
  comparison_buffer_dedup (fun _ => "#000000")
    [⟨"s", "exp_b", 0, "#111111", false⟩] "exp_a" "exp_a" true 0 1 1
    (by decide)

/-- Claim C7: when `color_from_base` is true the displayed color is the
shade computed from the rank of the cycle id inside the experiment
cycle list of the buffer and from the length of that list — the stored
hex value plays no role (the result is the same whatever hex value is
stored); when `color_from_base` is false the stored hex value is used
as is. -/
theorem color_resolution (shade : Nat → Nat → Bool → String)
    (rev : Bool) (buf : List SingleCycleSeries) (lbl nm : String)
    (cid : Nat) (hex1 hex2 : String) :
    resolveSeriesColor shade rev buf ⟨lbl, nm, cid, hex1, true⟩ =
      shade
        ((experimentCycleList buf nm).findIdx (fun n => n == cid))
        (experimentCycleList buf nm).length rev ∧
    resolveSeriesColor shade rev buf ⟨lbl, nm, cid, hex1, true⟩ =
      resolveSeriesColor shade rev buf ⟨lbl, nm, cid, hex2, true⟩ ∧
    resolveSeriesColor shade rev buf ⟨lbl, nm, cid, hex1, false⟩ =
      hex1 := by
  refine ⟨?_, ?_, ?_⟩ <;> simp [resolveSeriesColor]

/-- Claim C8: removing an experiment from the comparison buffer keeps
exactly the series of the other experiments, unchanged and in their
original relative order (the eviction loop is a filter on the
experiment name), and the delete-experiment handler applies the same
eviction to the session buffer. -/
theorem experiment_removal_filters_buffer :
    (∀ (name : String) (buf : List SingleCycleSeries),
      remove_experiment_from_series_buffer name buf =
        buf.filter (fun s => s.experiment_name != name)) ∧
    (∀ (name : String) (buf : List SingleCycleSeries)
        (t : SingleCycleSeries),
      t ∈ remove_experiment_from_series_buffer name buf →
        t.experiment_name ≠ name) ∧
    (∀ (state : SessionState) (name : String),
      (deleteExperimentHandler state name).comparison_buffer =
        state.comparison_buffer.filter
          (fun s => s.experiment_name != name)) :=
  ⟨remove_experiment_eq_filter,
   fun name buf t ht => remove_experiment_no_member name buf t ht,
   fun state name => remove_experiment_eq_filter name
     state.comparison_buffer⟩

/-- Witness for Claim C8 on a concrete two-experiment session. -/
theorem experiment_removal_filters_buffer_witness :
    remove_experiment_from_series_buffer "exp_a"
        [⟨"sa", "exp_a", 0, "#111111", false⟩,
         ⟨"sb", "exp_b", 1, "#222222", true⟩] =
      List.filter (fun s => s.experiment_name != "exp_a")
        [⟨"sa", "exp_a", 0, "#111111", false⟩,
         ⟨"sb", "exp_b", 1, "#222222", true⟩] ∧
    (⟨"sb", "exp_b", 1, "#222222", true⟩ :
      SingleCycleSeries).experiment_name ≠ "exp_a" ∧
    (deleteExperimentHandler
        ⟨[⟨"exp_a", "GAMRY", []⟩, ⟨"exp_b", "GAMRY", []⟩],
         [⟨"sa", "exp_a", 0, "#111111", false⟩,
          ⟨"sb", "exp_b", 1, "#222222", true⟩]⟩
        "exp_a").comparison_buffer =
      List.filter (fun s => s.experiment_name != "exp_a")
        [⟨"sa", "exp_a", 0, "#111111", false⟩,
         ⟨"sb", "exp_b", 1, "#222222", true⟩] :=
  ⟨experiment_removal_filters_buffer.1 "exp_a"
      [⟨"sa", "exp_a", 0, "#111111", false⟩,
       ⟨"sb", "exp_b", 1, "#222222", true⟩],
   experiment_removal_filters_buffer.2.1 "exp_a"
      [⟨"sa", "exp_a", 0, "#111111", false⟩,
       ⟨"sb", "exp_b", 1, "#222222", true⟩]
      ⟨"sb", "exp_b", 1, "#222222", true⟩ (by decide),
   experiment_removal_filters_buffer.2.2
      ⟨[⟨"exp_a", "GAMRY", []⟩, ⟨"exp_b", "GAMRY", []⟩],
       [⟨"sa", "exp_a", 0, "#111111", false⟩,
        ⟨"sb", "exp_b", 1, "#222222", true⟩]⟩ "exp_a"⟩

/-- Replacing the visible set registers exactly the given sequence. -/
lemma viewLookup_selectorSet (name : String) (cycles : List Nat) :
    ∀ view, viewLookup (selectorSet view name cycles) name =
      some cycles := by
  intro view
  induction view with
  | nil => simp [selectorSet, viewLookup, List.find?]
  | cons p t ih =>
    by_cases hp : (p.1 == name) = true
    · have hany : (p :: t).any (fun q => q.1 == name) = true := by
        simp [List.any_cons, hp]
      unfold selectorSet
      rw [if_pos hany, List.map_cons, if_pos hp]
      unfold viewLookup
      rw [List.find?_cons_of_pos _ (by simp)]
      rfl
    · have hstep : selectorSet (p :: t) name cycles =
          p :: selectorSet t name cycles := by
        unfold selectorSet
        by_cases hany : t.any (fun q => q.1 == name)
        · have hany' : (p :: t).any (fun q => q.1 == name) = true := by
            simp [List.any_cons, hany]
          rw [if_pos hany', if_pos hany, List.map_cons, if_neg hp]
        · have hany' : ¬((p :: t).any (fun q => q.1 == name) = true) := by
            simp only [List.any_cons, Bool.or_eq_true]
            push_neg
            exact ⟨hp, by simpa using hany⟩
          rw [if_neg hany', if_neg hany]
          rfl
      rw [hstep]
      unfold viewLookup
      have hp' : (p.1 == name) = false := by simpa using hp
      simp only [List.find?_cons, hp']
      exact ih

/-- Claim C9: the stacked-tab stride apply registers exactly
`np.arange(start, stop + 1, stride)` as the visible set, the concrete
selection `start=0, stop=9, stride=2` yields `[0, 2, 4, 6, 8]`, and
under the widget preconditions (`stride ≥ 1`, at least one cycle,
`stop ≤ ncycles - 1`) every generated index addresses an existing
cycle. -/
theorem stride_selection_range (view : List (String × List Nat))
    (name : String) (start stop stride ncycles : Nat)
    (hs : 1 ≤ stride) (hn : 1 ≤ ncycles) (hstop : stop ≤ ncycles - 1) :
    npArange 0 (9 + 1) 2 = [0, 2, 4, 6, 8] ∧
    viewLookup (stackedStrideApply view name start stop stride) name =
      some (npArange start (stop + 1) stride) ∧
    ∀ n ∈ npArange start (stop + 1) stride, n < ncycles := by
  refine ⟨by decide, viewLookup_selectorSet name _ view, ?_⟩
  intro n hn'
  have hlt : n < stop + 1 := npArange_lt start (stop + 1) stride hs n hn'
  omega

/-- Witness for Claim C9: ten cycles, stride 2 over the full range. -/
theorem stride_selection_range_witness :
    npArange 0 (9 + 1) 2 = [0, 2, 4, 6, 8] ∧
    viewLookup (stackedStrideApply [] "exp_a" 0 9 2) "exp_a" =
      some (npArange 0 (9 + 1) 2) ∧
    ∀ n ∈ npArange 0 (9 + 1) 2, n < 10 :=
  stride_selection_range [] "exp_a" 0 9 2 10
    (by decide) (by decide) (by decide)

/-- Claim C10: the metric accessor covers exactly the six closed metric
names; time and voltage are returned raw whatever factors are supplied;
current and power are divided by the area when one is supplied (current
density, power density) and returned raw otherwise, whatever the
volume; charge and energy are divided via the volume when one is
supplied (volumetric capacity, energy density) and returned raw
otherwise, whatever the area. -/
theorem halfcycle_series_normalization (hc : HalfCycleData)
    (a v : ℚ) (oa ov : Option ℚ) :
    HALFCYCLE_SERIES =
      ["time", "voltage", "current", "charge", "power", "energy"] ∧
    get_halfcycle_series hc "time" ov oa =
      some ("Time (s)", hc.time) ∧
    get_halfcycle_series hc "voltage" ov oa =
      some ("Voltage (V)", hc.voltage) ∧
    get_halfcycle_series hc "current" ov none =
      some ("Current (A)", hc.current) ∧
    get_halfcycle_series hc "current" ov (some a) =
      some ("Current density (A/cm<sup>2</sup>)",
        hc.current.map (fun x => x / a)) ∧
    get_halfcycle_series hc "charge" none oa =
      some ("Capacity (mAh)", hc.Q) ∧
    get_halfcycle_series hc "charge" (some v) oa =
      some ("Volumetric capacity (Ah/L)",
        hc.Q.map (fun x => x / (1000 * v))) ∧
    get_halfcycle_series hc "power" ov none =
      some ("Power (W)", hc.power) ∧
    get_halfcycle_series hc "power" ov (some a) =
      some ("Power density (mW/cm<sup>2</sup>)",
        hc.power.map (fun x => 1000 * x / a)) ∧
    get_halfcycle_series hc "energy" none oa =
      some ("Energy (mWh)", hc.energy) ∧
    get_halfcycle_series hc "energy" (some v) oa =
      some ("Energy density (Wh/L)",
        hc.energy.map (fun x => x / (1000 * v))) :=
  ⟨rfl, rfl, rfl, rfl, rfl, rfl, rfl, rfl, rfl, rfl, rfl⟩

end CellCycling
